import Mathlib

/-!
Verification development for the repository's specified from-scratch
approximate nearest-neighbor (ANN) vector index (spec sections 2-8) and
for the Spark RDD notebook's rating-aggregation pipelines.

The ANN core (VectorStore, DistanceMetric, FlatIndex, Quantizer,
InvertedFileIndex, ProductQuantizer, IndexPersistence) is not implemented
by the repository itself — the notebooks only call a pre-built library —
so every definition in that part is modelled from the specification text.
The RDD pipeline definitions are translated from the notebook source.

Scalars are modelled as rationals; vectors as lists of rationals;
identifiers as natural numbers (positions in insertion order).
-/

namespace Ann

/-- Modelled from the spec: a vector is a fixed-length ordered sequence of
floating-point numbers, embedded here as a list of rationals. -/
abbrev Vec := List ℚ

/-- Modelled from the spec (section 7): the error taxonomy, plus the
`EmptyIndex` error that section 4.5 mentions for searches on an index
holding zero stored vectors. -/
inductive Err where
  | dimensionMismatch
  | notTrained
  | insufficientData
  | invalidSegmentation
  | notFound
  | corruptState
  | emptyIndex
deriving DecidableEq, Repr

/-- Modelled from the spec (section 7): the listed error taxonomy.
`EmptyIndex` is notably absent from this list. -/
def taxonomy : List Err :=
  [Err.dimensionMismatch, Err.notTrained, Err.insufficientData,
   Err.invalidSegmentation, Err.notFound, Err.corruptState]

/-- Modelled from the spec (section 4.2): the two metric variants. -/
inductive Metric where
  | euclidean
  | innerProduct
deriving DecidableEq, Repr

/-- Modelled from the spec (section 4.2): squared Euclidean distance,
the sum of squared component differences. -/
def sqDist (a b : Vec) : ℚ :=
  (List.zipWith (fun x y => (x - y) ^ 2) a b).sum

/-- Modelled from the spec (section 4.2): negative inner product, framing
similarity search as a minimization. -/
def negIP (a b : Vec) : ℚ :=
  -(List.zipWith (fun x y => x * y) a b).sum

/-- Modelled from the spec (section 4.2): the pluggable pairwise scoring
function. -/
def Metric.dist : Metric → Vec → Vec → ℚ
  | .euclidean, a, b => sqDist a b
  | .innerProduct, a, b => negIP a b

/-- Ordering on (identifier, distance) pairs: ascending distance, ties
broken by ascending identifier (spec section 3, "Search result"). -/
def pairLE (a b : ℕ × ℚ) : Prop :=
  a.2 < b.2 ∨ (a.2 = b.2 ∧ a.1 ≤ b.1)

instance : DecidableRel pairLE := fun a b => by
  unfold pairLE; infer_instance

/-- Strict version of `pairLE`, used to state that ties are broken by
strictly ascending identifier. -/
def pairLT (a b : ℕ × ℚ) : Prop :=
  a.2 < b.2 ∨ (a.2 = b.2 ∧ a.1 < b.1)

/-- Modelled from the spec: full ranking of scored candidates by ascending
distance, ties broken by ascending identifier. -/
def rankPairs (l : List (ℕ × ℚ)) : List (ℕ × ℚ) :=
  List.insertionSort pairLE l

/-- Modelled from the spec (section 4.3): exhaustive search computes the
distance from the query to every stored vector and keeps the `k` smallest,
ties broken by ascending identifier. -/
def flatSearch (m : Metric) (store : List Vec) (q : Vec) (k : ℕ) :
    List (ℕ × ℚ) :=
  (rankPairs (store.enum.map (fun p => (p.1, m.dist q p.2)))).take k

theorem pairLE_trans {a b c : ℕ × ℚ} (hab : pairLE a b) (hbc : pairLE b c) :
    pairLE a c := by
  rcases hab with h1 | ⟨h1, h1'⟩ <;> rcases hbc with h2 | ⟨h2, h2'⟩
  · exact Or.inl (h1.trans h2)
  · exact Or.inl (h2 ▸ h1)
  · exact Or.inl (h1 ▸ h2)
  · exact Or.inr ⟨h1.trans h2, h1'.trans h2'⟩

theorem pairLE_total (a b : ℕ × ℚ) : pairLE a b ∨ pairLE b a := by
  rcases lt_trichotomy a.2 b.2 with h | h | h
  · exact Or.inl (Or.inl h)
  · rcases Nat.le_total a.1 b.1 with h' | h'
    · exact Or.inl (Or.inr ⟨h, h'⟩)
    · exact Or.inr (Or.inr ⟨h.symm, h'⟩)
  · exact Or.inr (Or.inl h)

theorem pairLE_antisymm {a b : ℕ × ℚ} (hab : pairLE a b) (hba : pairLE b a) :
    a = b := by
  rcases hab with h1 | ⟨h1, h1'⟩ <;> rcases hba with h2 | ⟨h2, h2'⟩
  · exact absurd h2 (not_lt_of_lt h1)
  · exact absurd h1 (h2 ▸ lt_irrefl _)
  · exact absurd h2 (h1 ▸ lt_irrefl _)
  · exact Prod.ext (Nat.le_antisymm h1' h2') h1

instance : IsAntisymm (ℕ × ℚ) pairLE := ⟨fun _ _ => pairLE_antisymm⟩

instance : IsTrans (ℕ × ℚ) pairLE := ⟨fun _ _ _ => pairLE_trans⟩

instance : IsTotal (ℕ × ℚ) pairLE := ⟨pairLE_total⟩

theorem rankPairs_perm (l : List (ℕ × ℚ)) : (rankPairs l).Perm l :=
  List.perm_insertionSort pairLE l

theorem rankPairs_sorted (l : List (ℕ × ℚ)) :
    (rankPairs l).Pairwise pairLE :=
  List.sorted_insertionSort pairLE l

theorem rankPairs_length (l : List (ℕ × ℚ)) :
    (rankPairs l).length = l.length :=
  (rankPairs_perm l).length_eq

/-- The ranked list of two scored candidate lists that are permutations of
each other is the same list: ranking is order-insensitive. -/
theorem rankPairs_eq_of_perm {l₁ l₂ : List (ℕ × ℚ)} (h : l₁.Perm l₂) :
    rankPairs l₁ = rankPairs l₂ :=
  List.eq_of_perm_of_sorted
    ((rankPairs_perm l₁).trans (h.trans (rankPairs_perm l₂).symm))
    (rankPairs_sorted l₁) (rankPairs_sorted l₂)

/-- When the identifiers of the scored candidates are pairwise distinct,
the ranked list is pairwise strictly increasing: ascending distance with
ties broken by strictly ascending identifier. -/
theorem rankPairs_pairwise_lt (l : List (ℕ × ℚ))
    (h : (l.map Prod.fst).Nodup) : (rankPairs l).Pairwise pairLT := by
  have hs := rankPairs_sorted l
  have hn : ((rankPairs l).map Prod.fst).Nodup :=
    (((rankPairs_perm l).map Prod.fst).nodup_iff).mpr h
  have hp : (rankPairs l).Pairwise (fun a b => a.1 ≠ b.1) :=
    List.pairwise_map.mp hn
  refine (hs.and hp).imp ?_
  rintro a b ⟨hle, hne⟩
  rcases hle with h1 | ⟨h1, h1'⟩
  · exact Or.inl h1
  · exact Or.inr ⟨h1, lt_of_le_of_ne h1' hne⟩

/-- The identifiers scored by a search over `store.enum` are pairwise
distinct. -/
theorem scored_ids_nodup (m : Metric) (store : List Vec) (q : Vec) :
    ((store.enum.map (fun p => (p.1, m.dist q p.2))).map Prod.fst).Nodup := by
  simp only [List.map_map]
  have : (Prod.fst ∘ fun p : ℕ × Vec => (p.1, m.dist q p.2)) = Prod.fst := by
    funext p; rfl
  rw [this, List.enum_map_fst]
  exact List.nodup_range _

/-- C1: for every FlatIndex holding `n` vectors of dimension `d`, every
query of dimension `d` and every requested `k`, `flatSearch` returns
exactly `min k n` (identifier, distance) pairs, pairwise ordered by
ascending distance with ties broken by strictly ascending identifier. -/
theorem flatSearch_length_and_sorted (m : Metric) (d : ℕ) (store : List Vec)
    (q : Vec) (k : ℕ) (hs : ∀ v ∈ store, v.length = d) (hq : q.length = d) :
    (flatSearch m store q k).length = min k store.length ∧
    (flatSearch m store q k).Pairwise pairLT := by
  constructor
  · unfold flatSearch
    rw [List.length_take, rankPairs_length, List.length_map, List.enum_length]
  · exact ((rankPairs_pairwise_lt _ (scored_ids_nodup m store q)).sublist
      (List.take_sublist _ _))

/-- C1 witness: the concrete scenario — a dimension-4 FlatIndex over
`[1,0,0,0]`, `[0,1,0,0]`, `[0,0,1,0]`, queried with `[1,0,0,0]`, `k = 1`,
under Euclidean distance returns `[(0, 0)]`, and the general shape theorem
applies to this input. -/
theorem flatSearch_length_and_sorted_witness :
    flatSearch Metric.euclidean [[1,0,0,0],[0,1,0,0],[0,0,1,0]] [1,0,0,0] 1
      = [(0, 0)] ∧
    ((flatSearch Metric.euclidean [[1,0,0,0],[0,1,0,0],[0,0,1,0]] [1,0,0,0] 1).length
        = min 1 ([[1,0,0,0],[0,1,0,0],[0,0,1,0]] : List Vec).length ∧
      (flatSearch Metric.euclidean [[1,0,0,0],[0,1,0,0],[0,0,1,0]] [1,0,0,0] 1).Pairwise pairLT) :=
  ⟨by with_unfolding_all rfl,
   flatSearch_length_and_sorted Metric.euclidean 4 _ _ 1
     (by intro v hv; fin_cases hv <;> rfl) rfl⟩

/-! ### Quantizer: Lloyd's k-means (spec section 4.4) -/

/-- Modelled from the spec: the deterministic pseudo-random generator
driving seeded random sampling (a linear congruential step). -/
def lcg (s : ℕ) : ℕ := (1103515245 * s + 12345) % 4294967296

/-- Modelled from the spec: seed-driven sampling without replacement —
picks `k` distinct positions out of the remaining pool. -/
def sampleIdx : ℕ → ℕ → List ℕ → List ℕ
  | 0, _, _ => []
  | k + 1, seed, remaining =>
    if remaining = [] then []
    else
      let i := lcg seed % remaining.length
      remaining.getD i 0 :: sampleIdx k (lcg seed) (remaining.eraseIdx i)

/-- Modelled from the spec (section 4.4): `assign(vector)` — linear scan
over centroids returning the nearest one, ties broken by lowest index. -/
def nearestIdx (m : Metric) (cs : List Vec) (v : Vec) : ℕ :=
  match rankPairs (cs.enum.map (fun p => (p.1, m.dist v p.2))) with
  | [] => 0
  | x :: _ => x.1

/-- Componentwise vector sum. -/
def vadd (a b : Vec) : Vec := List.zipWith (· + ·) a b

/-- Componentwise mean of a nonempty list of vectors (empty list gives
the empty vector). -/
def vmean (vs : List Vec) : Vec :=
  match vs with
  | [] => []
  | v :: t => (t.foldl vadd v).map (fun x => x / ((vs.length : ℕ) : ℚ))

/-- Modelled from the spec (section 4.4): recompute each centroid as the
componentwise mean of its assigned samples; a centroid with zero assigned
samples is reinitialized to a (seed-keyed) random sample. -/
def recompute (samples : List Vec) (asgn : List ℕ) (cs : List Vec)
    (seed : ℕ) : List Vec :=
  cs.enum.map (fun p =>
    let mine := (samples.zip asgn).filterMap
      (fun sa => if sa.2 = p.1 then some sa.1 else none)
    match mine with
    | [] => samples.getD (lcg (seed + p.1) % samples.length) []
    | v :: t => vmean (v :: t))

/-- Modelled from the spec (section 4.4): Lloyd iterations — assign every
sample to its nearest centroid, recompute centroids, stop early when no
assignment changes between iterations, and in any case after the
iteration budget is exhausted. -/
def kmeansLoop (m : Metric) (samples : List Vec) (seed : ℕ) :
    ℕ → List Vec → Option (List ℕ) → List Vec
  | 0, cs, _ => cs
  | fuel + 1, cs, prev =>
    let asgn := samples.map (nearestIdx m cs)
    if prev = some asgn then cs
    else kmeansLoop m samples seed fuel (recompute samples asgn cs seed) (some asgn)

/-- Modelled from the spec (section 4.4): `train(samples, nlist,
max_iterations, seed)` — fails with `InsufficientData` if
`len(samples) < nlist`, otherwise initializes `nlist` centroids by random
sampling without replacement and runs Lloyd iterations. -/
def kmeansTrain (m : Metric) (samples : List Vec) (nlist maxIter seed : ℕ) :
    Except Err (List Vec) :=
  if samples.length < nlist then .error .insufficientData
  else
    .ok (kmeansLoop m samples seed maxIter
      ((sampleIdx nlist seed (List.range samples.length)).map
        (fun i => samples.getD i [])) none)

theorem getD_mem {α : Type _} {l : List α} {i : ℕ} (h : i < l.length) (d : α) :
    l.getD i d ∈ l := by
  rw [List.getD_eq_getElem?_getD, List.getElem?_eq_getElem h]
  exact List.getElem_mem h

/-- A nearest-centroid index is always a valid centroid position. -/
theorem nearestIdx_lt (m : Metric) (cs : List Vec) (v : Vec)
    (h : cs ≠ []) : nearestIdx m cs v < cs.length := by
  unfold nearestIdx
  set L := cs.enum.map (fun p => (p.1, m.dist v p.2)) with hL
  have hlen : L.length = cs.length := by
    rw [hL, List.length_map, List.enum_length]
  have hne : rankPairs L ≠ [] := by
    intro hnil
    have := rankPairs_length L
    rw [hnil] at this
    simp only [List.length_nil] at this
    rw [hlen] at this
    exact h (List.length_eq_zero.mp this.symm)
  rcases hx : rankPairs L with _ | ⟨x, t⟩
  · exact absurd hx hne
  · have hxm : x ∈ rankPairs L := by rw [hx]; exact List.mem_cons_self _ _
    have hxL : x ∈ L := (rankPairs_perm L).mem_iff.mp hxm
    rw [hL] at hxL
    rcases List.mem_map.mp hxL with ⟨p, hp, hpx⟩
    have hplt : p.1 < cs.length := List.fst_lt_of_mem_enum hp
    exact hpx ▸ hplt

/-- C6: `Quantizer.train(samples, nlist, max_iterations, seed)` fails with
`InsufficientData` whenever there are fewer training samples than
requested clusters. -/
theorem kmeansTrain_insufficient (m : Metric) (samples : List Vec)
    (nlist maxIter seed : ℕ) (h : samples.length < nlist) :
    kmeansTrain m samples nlist maxIter seed = .error .insufficientData := by
  unfold kmeansTrain
  rw [if_pos h]

/-- C6 witness: training with only 3 samples and `nlist = 5` fails with
`InsufficientData`. -/
theorem kmeansTrain_insufficient_witness :
    ([[0],[1],[2]] : List Vec).length < 5 ∧
    kmeansTrain Metric.euclidean [[0],[1],[2]] 5 10 7
      = .error .insufficientData :=
  ⟨by decide, kmeansTrain_insufficient Metric.euclidean [[0],[1],[2]] 5 10 7
    (by decide)⟩

/-! ### VectorStore (spec sections 3, 4.1) -/

/-- Modelled from the spec (section 4.1): a flat in-memory array of
fixed-dimension vectors; each vector's position is its implicit
identifier, assigned at append time. -/
structure VectorStore where
  dim : ℕ
  vecs : List Vec
deriving Repr, DecidableEq

/-- Modelled from the spec (section 4.1): `append(vector) -> id`, failing
with `DimensionMismatch` if the vector's length disagrees with the
store's dimension. -/
def VectorStore.append (s : VectorStore) (v : Vec) :
    Except Err (VectorStore × ℕ) :=
  if v.length ≠ s.dim then .error .dimensionMismatch
  else .ok ({ s with vecs := s.vecs ++ [v] }, s.vecs.length)

/-- Modelled from the spec (section 4.1): `get(id) -> vector`, failing
with `NotFound` if the identifier is unassigned. -/
def VectorStore.lookup (s : VectorStore) (id : ℕ) : Except Err Vec :=
  match s.vecs.get? id with
  | some v => .ok v
  | none => .error .notFound

/-- Modelled from the spec (section 4.1): `size() -> count`. -/
def VectorStore.size (s : VectorStore) : ℕ := s.vecs.length

/-- An empty store of a fixed dimension. -/
def emptyStore (d : ℕ) : VectorStore := ⟨d, []⟩

/-- One append attempt: on `DimensionMismatch` the store is unchanged
(the error is raised to the caller and nothing is stored). -/
def VectorStore.appendOrSkip (s : VectorStore) (v : Vec) : VectorStore :=
  match s.append v with
  | .ok (s', _) => s'
  | .error _ => s

/-- A store populated by a sequence of append attempts. -/
def buildStore (d : ℕ) (vs : List Vec) : VectorStore :=
  vs.foldl VectorStore.appendOrSkip (emptyStore d)

theorem appendOrSkip_dim (s : VectorStore) (v : Vec) :
    (s.appendOrSkip v).dim = s.dim := by
  unfold VectorStore.appendOrSkip VectorStore.append
  by_cases hv : v.length ≠ s.dim
  · rw [if_pos hv]
  · rw [if_neg hv]

theorem appendOrSkip_inv (s : VectorStore) (v : Vec)
    (h : ∀ w ∈ s.vecs, w.length = s.dim) :
    ∀ w ∈ (s.appendOrSkip v).vecs, w.length = s.dim := by
  unfold VectorStore.appendOrSkip VectorStore.append
  by_cases hv : v.length ≠ s.dim
  · rw [if_pos hv]
    simpa using h
  · rw [if_neg hv]
    intro w hw
    simp only [List.mem_append, List.mem_singleton] at hw
    rcases hw with hw | hw
    · exact h w hw
    · rw [hw]
      exact not_not.mp hv

theorem foldl_appendOrSkip_inv (vs : List Vec) (s : VectorStore)
    (h : ∀ w ∈ s.vecs, w.length = s.dim) :
    ∀ w ∈ (vs.foldl VectorStore.appendOrSkip s).vecs,
      w.length = (vs.foldl VectorStore.appendOrSkip s).dim := by
  induction vs generalizing s with
  | nil => simpa using h
  | cons v t ih =>
    intro w hw
    exact ih (s.appendOrSkip v)
      (by rw [appendOrSkip_dim]; exact appendOrSkip_inv s v h) w (by simpa using hw)

theorem buildStore_dim (d : ℕ) (vs : List Vec) : (buildStore d vs).dim = d := by
  unfold buildStore
  have : ∀ s : VectorStore, (vs.foldl VectorStore.appendOrSkip s).dim = s.dim := by
    induction vs with
    | nil => intro s; rfl
    | cons v t ih => intro s; rw [List.foldl_cons, ih, appendOrSkip_dim]
  exact this (emptyStore d)

/-- C7: appending a vector whose length differs from the store's dimension
fails with `DimensionMismatch`, and every vector stored in an index built
by append attempts has exactly `d` components. -/
theorem append_dimension_mismatch_and_invariant (s : VectorStore) (v : Vec)
    (h : v.length ≠ s.dim) (d : ℕ) (vs : List Vec) :
    s.append v = .error .dimensionMismatch ∧
    ∀ w ∈ (buildStore d vs).vecs, w.length = d := by
  constructor
  · unfold VectorStore.append
    rw [if_pos h]
  · intro w hw
    have := foldl_appendOrSkip_inv vs (emptyStore d) (by intro w hw; cases hw) w hw
    rwa [show (vs.foldl VectorStore.appendOrSkip (emptyStore d)).dim = d from
      buildStore_dim d vs] at this

/-- C7 witness: adding the 3-dimensional vector `[1,2,3]` to a
dimension-4 index fails with `DimensionMismatch`, and a dimension-4 store
populated with mixed-length append attempts holds only length-4
vectors. -/
theorem append_dimension_mismatch_and_invariant_witness :
    (emptyStore 4).append [1,2,3] = .error .dimensionMismatch ∧
    ∀ w ∈ (buildStore 4 [[1,0,0,0],[9,9],[2,0,0,0]]).vecs, w.length = 4 :=
  append_dimension_mismatch_and_invariant (emptyStore 4) [1,2,3]
    (by decide) 4 [[1,0,0,0],[9,9],[2,0,0,0]]

/-! ### InvertedFileIndex (spec section 4.5) -/

/-- Modelled from the spec (section 4.5): an inverted-file index wraps a
quantizer's centroid set, a per-centroid bucket of identifiers, and the
underlying vector store; `trained` tracks the
`Untrained -> Trained -> Populated` state machine. -/
structure IVFIndex where
  dim : ℕ
  metric : Metric
  trained : Bool
  centroids : List Vec
  buckets : List (List ℕ)
  store : List Vec
deriving Repr, DecidableEq

/-- An untrained index: no centroids, no buckets, no vectors. -/
def ivfEmpty (d : ℕ) (m : Metric) : IVFIndex := ⟨d, m, false, [], [], []⟩

/-- Modelled from the spec (section 4.5): `train(samples, nlist)` invokes
the Quantizer and installs one empty bucket per centroid (training of an
already-trained index must instead rebuild from scratch, so training
always starts from the untrained state here). -/
def ivfTrain (d : ℕ) (m : Metric) (samples : List Vec)
    (nlist maxIter seed : ℕ) : Except Err IVFIndex :=
  (kmeansTrain m samples nlist maxIter seed).map
    (fun cs => ⟨d, m, true, cs, List.replicate cs.length [], []⟩)

/-- Modelled from the spec (section 4.5): `add(vector)` computes the
vector's nearest centroid, appends the vector to the store, and appends
the fresh identifier to that centroid's bucket. -/
def ivfAdd (ix : IVFIndex) (v : Vec) : IVFIndex :=
  let c := nearestIdx ix.metric ix.centroids v
  { ix with
    store := ix.store ++ [v],
    buckets := ix.buckets.set c ((ix.buckets.getD c []) ++ [ix.store.length]) }

/-- Modelled from the spec (section 4.5): `add` raises `NotTrained`
before training and `DimensionMismatch` on a wrong-length vector. -/
def ivfAddE (ix : IVFIndex) (v : Vec) : Except Err (IVFIndex × ℕ) :=
  if ix.trained = false then .error .notTrained
  else if v.length ≠ ix.dim then .error .dimensionMismatch
  else .ok (ivfAdd ix v, ix.store.length)

/-- Populating a trained index with a whole dataset. -/
def ivfBuild (ix : IVFIndex) (vs : List Vec) : IVFIndex :=
  vs.foldl ivfAdd ix

/-- Modelled from the spec (section 4.5): `search(query, k, nprobe)` ranks
the `nprobe` nearest centroids, gathers the union of their buckets,
computes the exact distance from the query to every candidate, and
returns the `k` smallest. -/
def ivfSearch (ix : IVFIndex) (q : Vec) (k nprobe : ℕ) : List (ℕ × ℚ) :=
  let ranked := rankPairs (ix.centroids.enum.map (fun p => (p.1, ix.metric.dist q p.2)))
  let probed := (ranked.take nprobe).map Prod.fst
  let cands := probed.flatMap (fun c => ix.buckets.getD c [])
  (rankPairs (cands.map (fun i => (i, ix.metric.dist q (ix.store.getD i []))))).take k

/-- Modelled from the spec (section 4.5): search on an index that was
never trained — and hence holds zero stored vectors, since `add` requires
training — fails with `EmptyIndex`, while a trained-but-empty index
returns an empty result rather than an error. -/
def ivfSearchE (ix : IVFIndex) (q : Vec) (k nprobe : ℕ) :
    Except Err (List (ℕ × ℚ)) :=
  if ix.trained = false then .error .emptyIndex
  else .ok (ivfSearch ix q k nprobe)

theorem ivfTrain_ok_shape {d : ℕ} {m : Metric} {samples : List Vec}
    {nlist maxIter seed : ℕ} {ix : IVFIndex}
    (h : ivfTrain d m samples nlist maxIter seed = .ok ix) :
    ∃ cs, kmeansTrain m samples nlist maxIter seed = .ok cs ∧
      ix = ⟨d, m, true, cs, List.replicate cs.length [], []⟩ := by
  unfold ivfTrain at h
  cases hk : kmeansTrain m samples nlist maxIter seed with
  | error e => rw [hk] at h; exact absurd h (by simp [Except.map])
  | ok cs =>
    rw [hk] at h
    simp only [Except.map, Except.ok.injEq] at h
    exact ⟨cs, rfl, h.symm⟩

theorem getD_replicate_nil (n c : ℕ) :
    (List.replicate n ([] : List ℕ)).getD c [] = [] := by
  rw [List.getD_eq_getElem?_getD]
  by_cases h : c < n
  · rw [List.getElem?_eq_getElem (by simpa using h)]
    simp [List.getElem_replicate]
  · rw [List.getElem?_eq_none (by simpa using Nat.le_of_not_lt h)]
    rfl

/-- Search on a freshly trained (hence empty) index finds no candidate. -/
theorem ivfSearch_trained_empty {d : ℕ} {m : Metric} {samples : List Vec}
    {nlist maxIter seed : ℕ} {ix : IVFIndex}
    (h : ivfTrain d m samples nlist maxIter seed = .ok ix)
    (q : Vec) (k nprobe : ℕ) : ivfSearch ix q k nprobe = [] := by
  obtain ⟨cs, _, hix⟩ := ivfTrain_ok_shape h
  subst hix
  have hnil : ∀ l : List ℕ, (l.flatMap fun _ => ([] : List ℕ)) = [] := by
    intro l
    induction l with
    | nil => rfl
    | cons c t ih => simpa using ih
  simp [ivfSearch, getD_replicate_nil, hnil, rankPairs]

/-- C4: searching an untrained inverted-file index (zero stored vectors)
fails with `EmptyIndex`; a trained-but-empty index instead returns an
empty result, not an error; and `EmptyIndex` is absent from the
spec's error-handling taxonomy. -/
theorem ivfSearchE_empty_behaviour (ixU : IVFIndex) (q : Vec) (k np : ℕ)
    (hu : ixU.trained = false) (hz : ixU.store = [])
    (d : ℕ) (m : Metric) (samples : List Vec) (nlist maxIter seed : ℕ)
    (ixT : IVFIndex) (ht : ivfTrain d m samples nlist maxIter seed = .ok ixT) :
    ivfSearchE ixU q k np = .error .emptyIndex ∧
    ivfSearchE ixT q k np = .ok [] ∧
    Err.emptyIndex ∉ taxonomy := by
  refine ⟨?_, ?_, by decide⟩
  · unfold ivfSearchE
    rw [if_pos hu]
  · obtain ⟨cs, _, hix⟩ := ivfTrain_ok_shape ht
    unfold ivfSearchE
    rw [if_neg (by rw [hix]; simp), ivfSearch_trained_empty ht]

/-- C4 witness: a concrete untrained index errors with `EmptyIndex`, and
a concretely trained-but-empty index returns `.ok []`. -/
theorem ivfSearchE_empty_behaviour_witness :
    (ivfEmpty 1 Metric.euclidean).trained = false ∧
    (ivfEmpty 1 Metric.euclidean).store = [] ∧
    ivfTrain 1 Metric.euclidean [[0],[10]] 2 5 3
      = .ok ⟨1, Metric.euclidean, true, [[0],[10]], [[],[]], []⟩ ∧
    (ivfSearchE (ivfEmpty 1 Metric.euclidean) [0] 1 1 = .error .emptyIndex ∧
     ivfSearchE ⟨1, Metric.euclidean, true, [[0],[10]], [[],[]], []⟩ [0] 1 1 = .ok [] ∧
     Err.emptyIndex ∉ taxonomy) :=
  ⟨rfl, rfl, by with_unfolding_all rfl,
   ivfSearchE_empty_behaviour (ivfEmpty 1 Metric.euclidean) [0] 1 1 rfl rfl
     1 Metric.euclidean [[0],[10]] 2 5 3
     ⟨1, Metric.euclidean, true, [[0],[10]], [[],[]], []⟩
     (by with_unfolding_all rfl)⟩

theorem sampleIdx_length (k : ℕ) : ∀ (seed : ℕ) (rem : List ℕ),
    (sampleIdx k seed rem).length = min k rem.length := by
  induction k with
  | zero => intro seed rem; simp [sampleIdx]
  | succ k ih =>
    intro seed rem
    unfold sampleIdx
    by_cases hrem : rem = []
    · subst hrem; simp
    · rw [if_neg hrem]
      have hpos : 0 < rem.length := List.length_pos.mpr hrem
      have hlt : lcg seed % rem.length < rem.length := Nat.mod_lt _ hpos
      simp only [List.length_cons, ih]
      rw [List.length_eraseIdx_of_lt hlt]
      omega

theorem kmeansLoop_length (m : Metric) (samples : List Vec) (seed : ℕ) :
    ∀ (fuel : ℕ) (cs : List Vec) (prev : Option (List ℕ)),
    (kmeansLoop m samples seed fuel cs prev).length = cs.length := by
  intro fuel
  induction fuel with
  | zero => intro cs prev; rfl
  | succ fuel ih =>
    intro cs prev
    unfold kmeansLoop
    by_cases h : prev = some (samples.map (nearestIdx m cs))
    · rw [if_pos h]
    · rw [if_neg h, ih]
      simp [recompute]

theorem kmeansTrain_ok_length {m : Metric} {samples : List Vec}
    {nlist maxIter seed : ℕ} {cs : List Vec}
    (h : kmeansTrain m samples nlist maxIter seed = .ok cs) :
    cs.length = nlist := by
  unfold kmeansTrain at h
  by_cases hlt : samples.length < nlist
  · rw [if_pos hlt] at h; cases h
  · rw [if_neg hlt] at h
    have := (Except.ok.injEq _ _).mp h.symm
    rw [this, kmeansLoop_length, List.length_map, sampleIdx_length,
      List.length_range]
    omega

/-- Appending a fresh identifier to bucket `c` prepends it (up to
permutation) to the flattened bucket contents. -/
theorem set_flatten_perm (n : ℕ) :
    ∀ (bs : List (List ℕ)) (c : ℕ), c < bs.length →
    (bs.set c ((bs.getD c []) ++ [n])).flatten.Perm (n :: bs.flatten) := by
  intro bs
  induction bs with
  | nil => intro c hc; simp at hc
  | cons b t ih =>
    intro c hc
    cases c with
    | zero =>
      simp only [List.set_cons_zero, List.flatten_cons, List.getD_cons_zero]
      rw [List.append_assoc]
      exact List.perm_middle
    | succ c =>
      simp only [List.set_cons_succ, List.flatten_cons, List.getD_cons_succ]
      have hct : c < t.length := by simpa using hc
      exact ((ih c hct).append_left b).trans List.perm_middle

theorem ivfAdd_store (ix : IVFIndex) (v : Vec) :
    (ivfAdd ix v).store = ix.store ++ [v] := rfl

theorem ivfAdd_fields (ix : IVFIndex) (v : Vec) :
    (ivfAdd ix v).metric = ix.metric ∧ (ivfAdd ix v).centroids = ix.centroids ∧
    (ivfAdd ix v).dim = ix.dim ∧ (ivfAdd ix v).buckets.length = ix.buckets.length := by
  refine ⟨rfl, rfl, rfl, ?_⟩
  simp [ivfAdd]

theorem ivfBuild_store (vs : List Vec) : ∀ ix : IVFIndex,
    (ivfBuild ix vs).store = ix.store ++ vs := by
  induction vs with
  | nil => intro ix; simp [ivfBuild]
  | cons v t ih =>
    intro ix
    show (ivfBuild (ivfAdd ix v) t).store = _
    rw [ih, ivfAdd_store, List.append_assoc]
    rfl

theorem ivfBuild_fields (vs : List Vec) : ∀ ix : IVFIndex,
    (ivfBuild ix vs).metric = ix.metric ∧
    (ivfBuild ix vs).centroids = ix.centroids ∧
    (ivfBuild ix vs).buckets.length = ix.buckets.length := by
  induction vs with
  | nil => intro ix; exact ⟨rfl, rfl, rfl⟩
  | cons v t ih =>
    intro ix
    have h1 := ih (ivfAdd ix v)
    have h2 := ivfAdd_fields ix v
    exact ⟨h1.1.trans h2.1, h1.2.1.trans h2.2.1, h1.2.2.trans h2.2.2.2⟩

/-- The populate invariant: the buckets of a built index partition the
identifier range — their flattened contents are a permutation of
`range n`. -/
theorem ivfBuild_flatten_perm (vs : List Vec) : ∀ (ix : IVFIndex),
    ix.centroids ≠ [] → ix.buckets.length = ix.centroids.length →
    ix.buckets.flatten.Perm (List.range ix.store.length) →
    (ivfBuild ix vs).buckets.flatten.Perm
      (List.range (ivfBuild ix vs).store.length) := by
  induction vs with
  | nil => intro ix _ _ h; exact h
  | cons v t ih =>
    intro ix hc hlen h
    show (ivfBuild (ivfAdd ix v) t).buckets.flatten.Perm _
    have hfields := ivfAdd_fields ix v
    refine ih (ivfAdd ix v) (hfields.2.1 ▸ hc) (by rw [hfields.2.2.2, hfields.2.1, hlen]) ?_
    have hclt : nearestIdx ix.metric ix.centroids v < ix.buckets.length := by
      rw [hlen]; exact nearestIdx_lt ix.metric ix.centroids v hc
    have hperm := set_flatten_perm ix.store.length ix.buckets _ hclt
    show (ix.buckets.set _ _).flatten.Perm (List.range (ix.store ++ [v]).length)
    rw [List.length_append, List.length_singleton]
    exact hperm.trans ((h.cons _).trans
      (by rw [List.range_succ]; exact (List.perm_append_singleton _ _).symm))

theorem range_flatMap_getD : ∀ bs : List (List ℕ),
    ((List.range bs.length).flatMap fun c => bs.getD c []) = bs.flatten := by
  intro bs
  induction bs with
  | nil => rfl
  | cons b t ih =>
    rw [List.length_cons, List.range_succ_eq_map, List.flatMap_cons,
      List.flatMap_map]
    simp only [List.getD_cons_zero, List.getD_cons_succ, Function.comp]
    rw [ih, List.flatten_cons]

theorem enum_scored_map_fst (g : Vec → ℚ) (store : List Vec) :
    (store.enum.map (fun p => (p.1, g p.2))).map Prod.fst
      = List.range store.length := by
  simp only [List.map_map]
  have : (Prod.fst ∘ fun p : ℕ × Vec => (p.1, g p.2)) = Prod.fst :=
    funext (fun p => rfl)
  rw [this, List.enum_map_fst]

theorem range_scored_eq_enum (g : Vec → ℚ) (store : List Vec) :
    (List.range store.length).map (fun i => (i, g (store.getD i [])))
      = store.enum.map (fun p => (p.1, g p.2)) := by
  apply List.ext_getElem
  · simp
  · intro i h1 h2
    have hi : i < store.length := by simpa using h1
    simp only [List.getElem_map, List.getElem_range, List.getElem_enum]
    have : store.getD i [] = store[i] := by
      rw [List.getD_eq_getElem?_getD, List.getElem?_eq_getElem hi]
      rfl
    rw [this]

theorem flatten_replicate_nil : ∀ n : ℕ,
    (List.replicate n ([] : List ℕ)).flatten = [] := by
  intro n
  induction n with
  | zero => rfl
  | succ n ih => rw [List.replicate_succ, List.flatten_cons, List.nil_append, ih]

/-- C2: an inverted-file index trained on any dataset and populated with
it, searched with `nprobe = nlist`, returns a result list identical to
exhaustive `flatSearch` over the same data, metric, query and `k`
(full-probe approximate search is exact). -/
theorem ivf_fullprobe_eq_flatSearch (d : ℕ) (m : Metric) (samples : List Vec)
    (nlist maxIter seed : ℕ) (ix0 : IVFIndex)
    (h : ivfTrain d m samples nlist maxIter seed = .ok ix0) (hn : 0 < nlist)
    (data : List Vec) (q : Vec) (k : ℕ) :
    ivfSearch (ivfBuild ix0 data) q k nlist = flatSearch m data q k := by
  obtain ⟨cs, hk, hix⟩ := ivfTrain_ok_shape h
  subst hix
  have hcs : cs.length = nlist := kmeansTrain_ok_length hk
  have hcne : cs ≠ [] := by
    intro hnil
    rw [hnil] at hcs
    simp only [List.length_nil] at hcs
    omega
  set ix0 : IVFIndex := ⟨d, m, true, cs, List.replicate cs.length [], []⟩ with hix0
  set B := ivfBuild ix0 data with hB
  have hf := ivfBuild_fields data ix0
  have hBm : B.metric = m := hf.1
  have hBc : B.centroids = cs := hf.2.1
  have hBbl : B.buckets.length = cs.length := by
    rw [hf.2.2]
    exact List.length_replicate _ _
  have hBs : B.store = data := by
    rw [hB, ivfBuild_store, hix0]
    rfl
  have hBperm : B.buckets.flatten.Perm (List.range data.length) := by
    have := ivfBuild_flatten_perm data ix0 hcne
      (by
        show (List.replicate cs.length ([] : List ℕ)).length = cs.length
        exact List.length_replicate _ _)
      (by
        show (List.replicate cs.length ([] : List ℕ)).flatten.Perm (List.range ([] : List Vec).length)
        rw [flatten_replicate_nil]
        simp)
    rwa [← hB, hBs] at this
  simp only [ivfSearch, hBm, hBc, hBs]
  set L := cs.enum.map (fun p => (p.1, m.dist q p.2)) with hL
  have htake : (rankPairs L).take nlist = rankPairs L := by
    apply List.take_of_length_le
    rw [rankPairs_length, hL, List.length_map, List.enum_length, hcs]
  rw [htake]
  have hids : ((rankPairs L).map Prod.fst).Perm (List.range cs.length) := by
    rw [← enum_scored_map_fst (m.dist q) cs]
    exact (rankPairs_perm L).map _
  have hcand : (((rankPairs L).map Prod.fst).flatMap
      (fun c => B.buckets.getD c [])).Perm (List.range data.length) := by
    refine (hids.flatMap_right _).trans ?_
    rw [← hBbl, range_flatMap_getD]
    exact hBperm
  have hfinal : ((((rankPairs L).map Prod.fst).flatMap
      (fun c => B.buckets.getD c [])).map
        (fun i => (i, m.dist q (data.getD i [])))).Perm
      (data.enum.map (fun p => (p.1, m.dist q p.2))) := by
    refine (hcand.map _).trans ?_
    rw [range_scored_eq_enum]
  unfold flatSearch
  rw [rankPairs_eq_of_perm hfinal]

/-- C2 witness: a concretely trained 1-dimensional, 2-centroid IVF,
populated with three vectors and probed with `nprobe = nlist = 2`,
returns the same ranked list as exhaustive search. -/
theorem ivf_fullprobe_eq_flatSearch_witness :
    ivfTrain 1 Metric.euclidean [[0],[10]] 2 5 3
      = .ok ⟨1, Metric.euclidean, true, [[0],[10]], [[],[]], []⟩ ∧
    0 < 2 ∧
    ivfSearch (ivfBuild ⟨1, Metric.euclidean, true, [[0],[10]], [[],[]], []⟩
        [[1],[9],[4]]) [3] 2 2
      = flatSearch Metric.euclidean [[1],[9],[4]] [3] 2 :=
  ⟨by with_unfolding_all rfl, by decide,
   ivf_fullprobe_eq_flatSearch 1 Metric.euclidean [[0],[10]] 2 5 3
     ⟨1, Metric.euclidean, true, [[0],[10]], [[],[]], []⟩
     (by with_unfolding_all rfl) (by decide) [[1],[9],[4]] [3] 2⟩

/-! ### ProductQuantizer (spec section 4.6) -/

/-- Modelled from the spec (section 4.6): a product quantizer splits each
`d`-dimensional vector into `m` equal segments, each quantized against
its own codebook of `2^nbits` centroids. -/
structure PQ where
  d : ℕ
  m : ℕ
  nbits : ℕ
  metric : Metric
  codebooks : List (List Vec)
deriving Repr, DecidableEq

/-- Modelled from the spec (section 4.6): split a vector into `m`
equal-length segments. -/
def splitSeg (d m : ℕ) (v : Vec) : List Vec :=
  (List.range m).map (fun i => (v.drop (i * (d / m))).take (d / m))

/-- Sequence a list of fallible results, propagating the first error. -/
def collectSegs : List (Except Err (List Vec)) → Except Err (List (List Vec))
  | [] => .ok []
  | x :: t =>
    match x with
    | .error e => .error e
    | .ok a =>
      match collectSegs t with
      | .error e => .error e
      | .ok l => .ok (a :: l)

/-- Modelled from the spec (section 4.6): `train(samples, m, nbits)` —
requires `d % m == 0` (otherwise `InvalidSegmentation`), then runs the
quantizer's k-means independently on each segment with
`nlist = 2^nbits`. -/
def pqTrain (metric : Metric) (samples : List Vec) (d m nbits maxIter seed : ℕ) :
    Except Err PQ :=
  if d % m ≠ 0 then .error .invalidSegmentation
  else
    (collectSegs ((List.range m).map (fun i =>
      kmeansTrain metric (samples.map (fun s => (s.drop (i * (d / m))).take (d / m)))
        (2 ^ nbits) maxIter (seed + i)))).map
      (fun cbs => ⟨d, m, nbits, metric, cbs⟩)

/-- Modelled from the spec (section 4.6): `encode(vector)` replaces each
segment with the index of its nearest codebook centroid. -/
def pqEncode (pq : PQ) (v : Vec) : List ℕ :=
  List.zipWith (fun cb seg => nearestIdx pq.metric cb seg)
    pq.codebooks (splitSeg pq.d pq.m v)

/-- The centroids selected by a code, one per segment. -/
def selectedCentroids (pq : PQ) (code : List ℕ) : List Vec :=
  List.zipWith (fun cb c => cb.getD c []) pq.codebooks code

/-- Modelled from the spec (section 4.6): `decode(code)` concatenates the
`m` codebook centroids selected by the code. -/
def pqDecode (pq : PQ) (code : List ℕ) : Vec :=
  (selectedCentroids pq code).flatten

/-- Modelled from the spec (section 4.6): `approximate_distance(query,
code)` sums the per-segment distance from each query segment to the
centroid selected by the code. -/
def pqApproxDist (pq : PQ) (q : Vec) (code : List ℕ) : ℚ :=
  (List.zipWith (fun seg cen => pq.metric.dist seg cen)
    (splitSeg pq.d pq.m q) (selectedCentroids pq code)).sum

/-- Modelled from the spec: the spread of one codebook — the largest
pairwise distance between two of its centroids. -/
def codebookSpread (metric : Metric) (cb : List Vec) : ℚ :=
  ((cb.flatMap (fun a => cb.map (fun b => metric.dist a b))).foldl max 0)

/-- Modelled from the spec: the maximum intra-codebook spread across all
segments. -/
def maxSpread (pq : PQ) : ℚ :=
  (pq.codebooks.map (codebookSpread pq.metric)).foldl max 0

/-! ### Dimension invariants of k-means training -/

theorem sqDist_nonneg : ∀ (a b : Vec), 0 ≤ sqDist a b := by
  intro a
  induction a with
  | nil => intro b; simp [sqDist]
  | cons x t ih =>
    intro b
    cases b with
    | nil => simp [sqDist]
    | cons y s =>
      show 0 ≤ sqDist (x :: t) (y :: s)
      have h1 : sqDist (x :: t) (y :: s) = (x - y) ^ 2 + sqDist t s := by
        simp [sqDist]
      rw [h1]
      exact add_nonneg (sq_nonneg _) (ih s)

theorem sqDist_eq_zero_iff : ∀ (a b : Vec), a.length = b.length →
    (sqDist a b = 0 ↔ a = b) := by
  intro a
  induction a with
  | nil =>
    intro b h
    cases b with
    | nil => simp [sqDist]
    | cons y s => simp at h
  | cons x t ih =>
    intro b h
    cases b with
    | nil => simp at h
    | cons y s =>
      have hlen : t.length = s.length := by simpa using h
      have h1 : sqDist (x :: t) (y :: s) = (x - y) ^ 2 + sqDist t s := by
        simp [sqDist]
      rw [h1]
      constructor
      · intro h0
        have hx : (x - y) ^ 2 = 0 ∧ sqDist t s = 0 := by
          constructor
          · nlinarith [sq_nonneg (x - y), sqDist_nonneg t s]
          · nlinarith [sq_nonneg (x - y), sqDist_nonneg t s]
        have hxy : x = y := by
          have := sq_eq_zero_iff.mp hx.1
          linarith [sub_eq_zero.mp this]
        have hts : t = s := (ih s hlen).mp hx.2
        rw [hxy, hts]
      · intro he
        injection he with h1' h2'
        subst h1'
        subst h2'
        simp [sq]
        have : sqDist t t = 0 := by
          have : ∀ u : Vec, sqDist u u = 0 := by
            intro u
            induction u with
            | nil => simp [sqDist]
            | cons z w ihz =>
              have : sqDist (z :: w) (z :: w) = (z - z) ^ 2 + sqDist w w := by
                simp [sqDist]
              rw [this, ihz]
              ring
          exact this t
        linarith

theorem vadd_length (a b : Vec) : (vadd a b).length = min a.length b.length :=
  List.length_zipWith _ _ _

theorem foldl_vadd_length (L : ℕ) : ∀ (t : List Vec) (v : Vec),
    v.length = L → (∀ w ∈ t, w.length = L) →
    (t.foldl vadd v).length = L := by
  intro t
  induction t with
  | nil => intro v hv _; exact hv
  | cons w s ih =>
    intro v hv hw
    rw [List.foldl_cons]
    exact ih (vadd v w)
      (by rw [vadd_length, hv, hw w (List.mem_cons_self _ _)]; simp)
      (fun x hx => hw x (List.mem_cons_of_mem _ hx))

theorem vmean_length (vs : List Vec) (L : ℕ) (h : ∀ v ∈ vs, v.length = L)
    (hne : vs ≠ []) : (vmean vs).length = L := by
  cases vs with
  | nil => exact absurd rfl hne
  | cons v t =>
    show ((t.foldl vadd v).map _).length = L
    rw [List.length_map]
    exact foldl_vadd_length L t v (h v (List.mem_cons_self _ _))
      (fun w hw => h w (List.mem_cons_of_mem _ hw))

theorem sampleIdx_subset (k : ℕ) : ∀ (seed : ℕ) (rem : List ℕ),
    ∀ x ∈ sampleIdx k seed rem, x ∈ rem := by
  induction k with
  | zero => intro seed rem x hx; simp [sampleIdx] at hx
  | succ k ih =>
    intro seed rem x hx
    unfold sampleIdx at hx
    by_cases hrem : rem = []
    · rw [if_pos hrem] at hx; simp at hx
    · rw [if_neg hrem] at hx
      have hpos : 0 < rem.length := List.length_pos.mpr hrem
      rcases List.mem_cons.mp hx with hx | hx
      · rw [hx]
        exact getD_mem (Nat.mod_lt _ hpos) 0
      · exact (List.eraseIdx_sublist rem _).subset (ih _ _ x hx)

theorem recompute_length_inv (samples : List Vec) (asgn : List ℕ)
    (cs : List Vec) (seed L : ℕ) (hs : ∀ s ∈ samples, s.length = L)
    (hne : samples ≠ []) :
    ∀ c ∈ recompute samples asgn cs seed, c.length = L := by
  intro c hc
  unfold recompute at hc
  rcases List.mem_map.mp hc with ⟨p, _, hpc⟩
  set mine := (samples.zip asgn).filterMap
    (fun sa => if sa.2 = p.1 then some sa.1 else none) with hmine
  have hminemem : ∀ x ∈ mine, x ∈ samples := by
    intro x hx
    rw [hmine] at hx
    rcases List.mem_filterMap.mp hx with ⟨sa, hsa, hif⟩
    have : sa.1 = x := by
      by_cases hcond : sa.2 = p.1
      · rw [if_pos hcond] at hif
        injection hif
      · rw [if_neg hcond] at hif
        cases hif
    rw [← this]
    exact (List.of_mem_zip hsa).1
  rcases hm : mine with _ | ⟨v, t⟩
  · rw [← hpc]
    simp only [← hmine, hm]
    exact hs _ (getD_mem (Nat.mod_lt _ (List.length_pos.mpr hne)) [])
  · rw [← hpc]
    simp only [← hmine, hm]
    exact vmean_length (v :: t) L
      (fun w hw => hs w (hminemem w (hm ▸ hw))) (by simp)

theorem kmeansLoop_length_inv (m : Metric) (samples : List Vec) (seed L : ℕ)
    (hs : ∀ s ∈ samples, s.length = L) (hne : samples ≠ []) :
    ∀ (fuel : ℕ) (cs : List Vec) (prev : Option (List ℕ)),
    (∀ c ∈ cs, c.length = L) →
    ∀ c ∈ kmeansLoop m samples seed fuel cs prev, c.length = L := by
  intro fuel
  induction fuel with
  | zero => intro cs prev h; exact h
  | succ fuel ih =>
    intro cs prev h
    unfold kmeansLoop
    by_cases hp : prev = some (samples.map (nearestIdx m cs))
    · rw [if_pos hp]; exact h
    · rw [if_neg hp]
      exact ih _ _ (recompute_length_inv samples _ cs seed L hs hne)

theorem kmeansTrain_ok_dims {m : Metric} {samples : List Vec}
    {nlist maxIter seed : ℕ} {cs : List Vec} {L : ℕ}
    (h : kmeansTrain m samples nlist maxIter seed = .ok cs)
    (hs : ∀ s ∈ samples, s.length = L) (hn : 0 < nlist) :
    ∀ c ∈ cs, c.length = L := by
  unfold kmeansTrain at h
  by_cases hlt : samples.length < nlist
  · rw [if_pos hlt] at h; cases h
  · rw [if_neg hlt] at h
    have hne : samples ≠ [] := by
      intro hnil
      rw [hnil] at hlt
      simp only [List.length_nil] at hlt
      omega
    have hcs := (Except.ok.injEq _ _).mp h.symm
    rw [hcs]
    refine kmeansLoop_length_inv m samples seed L hs hne maxIter _ none ?_
    intro c hc
    rcases List.mem_map.mp hc with ⟨i, hi, hic⟩
    have hilt : i < samples.length := by
      have := sampleIdx_subset nlist seed (List.range samples.length) i hi
      exact List.mem_range.mp this
    rw [← hic]
    exact hs _ (getD_mem hilt [])

theorem collectSegs_ok : ∀ {l : List (Except Err (List Vec))}
    {out : List (List Vec)}, collectSegs l = .ok out →
    out.length = l.length ∧ ∀ b ∈ out, Except.ok b ∈ l := by
  intro l
  induction l with
  | nil =>
    intro out h
    unfold collectSegs at h
    have : [] = out := by injection h
    subst this
    exact ⟨rfl, by simp⟩
  | cons x t ih =>
    intro out h
    unfold collectSegs at h
    cases x with
    | error e => simp at h
    | ok a =>
      cases hrec : collectSegs t with
      | error e => rw [hrec] at h; simp at h
      | ok l' =>
        rw [hrec] at h
        simp only [Except.ok.injEq] at h
        subst h
        obtain ⟨hlen, hmem⟩ := ih hrec
        refine ⟨by simp [hlen], ?_⟩
        intro b hb
        rcases List.mem_cons.mp hb with hb | hb
        · subst hb; exact List.mem_cons_self _ _
        · exact List.mem_cons_of_mem _ (hmem b hb)

theorem seg_length {d m i : ℕ} (hmd : d % m = 0) (him : i < m) (s : Vec)
    (hL : s.length = d) :
    ((s.drop (i * (d / m))).take (d / m)).length = d / m := by
  have hdvd : m ∣ d := Nat.dvd_of_mod_eq_zero hmd
  have hd : m * (d / m) = d := Nat.mul_div_cancel' hdvd
  have hle : (i + 1) * (d / m) ≤ m * (d / m) :=
    Nat.mul_le_mul_right _ him
  rw [Nat.succ_mul] at hle
  rw [List.length_take, List.length_drop, hL]
  omega

theorem pqTrain_ok_shape {metric : Metric} {samples : List Vec}
    {d m nbits maxIter seed : ℕ} {pq : PQ}
    (h : pqTrain metric samples d m nbits maxIter seed = .ok pq) :
    d % m = 0 ∧ pq = ⟨d, m, nbits, metric, pq.codebooks⟩ ∧
    pq.codebooks.length = m ∧
    ∀ cb ∈ pq.codebooks, ∃ i < m,
      kmeansTrain metric
        (samples.map (fun s => (s.drop (i * (d / m))).take (d / m)))
        (2 ^ nbits) maxIter (seed + i) = .ok cb := by
  unfold pqTrain at h
  by_cases hmd : d % m ≠ 0
  · rw [if_pos hmd] at h; cases h
  · rw [if_neg hmd] at h
    cases hc : collectSegs ((List.range m).map (fun i =>
        kmeansTrain metric (samples.map (fun s => (s.drop (i * (d / m))).take (d / m)))
          (2 ^ nbits) maxIter (seed + i))) with
    | error e => rw [hc] at h; simp [Except.map] at h
    | ok cbs =>
      rw [hc] at h
      simp only [Except.map, Except.ok.injEq] at h
      obtain ⟨hlen, hmem⟩ := collectSegs_ok hc
      have hpq : pq.codebooks = cbs := by rw [← h]
      refine ⟨not_not.mp hmd, by rw [← h], ?_, ?_⟩
      · rw [hpq, hlen, List.length_map, List.length_range]
      · intro cb hcb
        rw [hpq] at hcb
        have := hmem cb hcb
        rcases List.mem_map.mp this with ⟨i, hi, hieq⟩
        exact ⟨i, List.mem_range.mp hi, hieq⟩

/-- Codebook shape for a trained product quantizer over `d`-dimensional
samples: `m` codebooks of `2^nbits` centroids, each of segment length. -/
theorem pqTrain_codebook_dims {metric : Metric} {samples : List Vec}
    {d m nbits maxIter seed : ℕ} {pq : PQ}
    (h : pqTrain metric samples d m nbits maxIter seed = .ok pq)
    (hs : ∀ s ∈ samples, s.length = d) :
    ∀ cb ∈ pq.codebooks, cb.length = 2 ^ nbits ∧
      ∀ c ∈ cb, c.length = d / m := by
  obtain ⟨hmd, _, _, hmem⟩ := pqTrain_ok_shape h
  intro cb hcb
  obtain ⟨i, him, hk⟩ := hmem cb hcb
  refine ⟨kmeansTrain_ok_length hk, ?_⟩
  refine kmeansTrain_ok_dims hk ?_ (Nat.pos_pow_of_pos _ (by norm_num))
  intro s hsm
  rcases List.mem_map.mp hsm with ⟨s₀, hs₀, hseq⟩
  rw [← hseq]
  exact seg_length hmd him s₀ (hs s₀ hs₀)

theorem mem_zipWith {α β γ : Type _} (f : α → β → γ) :
    ∀ (l₁ : List α) (l₂ : List β), ∀ z ∈ List.zipWith f l₁ l₂,
      ∃ a ∈ l₁, ∃ b ∈ l₂, z = f a b := by
  intro l₁
  induction l₁ with
  | nil => intro l₂ z hz; simp at hz
  | cons a t ih =>
    intro l₂ z hz
    cases l₂ with
    | nil => simp at hz
    | cons b s =>
      rw [List.zipWith_cons_cons] at hz
      rcases List.mem_cons.mp hz with hz | hz
      · exact ⟨a, List.mem_cons_self _ _, b, List.mem_cons_self _ _, hz⟩
      · obtain ⟨a', ha', b', hb', hz'⟩ := ih s z hz
        exact ⟨a', List.mem_cons_of_mem _ ha', b', List.mem_cons_of_mem _ hb', hz'⟩

theorem flatten_length_const {L : ℕ} : ∀ (ls : List Vec),
    (∀ x ∈ ls, x.length = L) → ls.flatten.length = ls.length * L := by
  intro ls
  induction ls with
  | nil => intro _; simp
  | cons x t ih =>
    intro h
    rw [List.flatten_cons, List.length_append, List.length_cons,
      ih (fun y hy => h y (List.mem_cons_of_mem _ hy)),
      h x (List.mem_cons_self _ _), Nat.succ_mul]
    omega

theorem splitSeg_length (d m : ℕ) (v : Vec) : (splitSeg d m v).length = m := by
  rw [splitSeg, List.length_map, List.length_range]

/-- The reconstruction `decode(encode(v))` of a trained product quantizer
has the index dimension. -/
theorem pqDecode_encode_length {metric : Metric} {samples : List Vec}
    {d m nbits maxIter seed : ℕ} {pq : PQ}
    (h : pqTrain metric samples d m nbits maxIter seed = .ok pq)
    (hs : ∀ s ∈ samples, s.length = d) (v : Vec) :
    (pqDecode pq (pqEncode pq v)).length = d := by
  obtain ⟨hmd, hshape, hcbl, _⟩ := pqTrain_ok_shape h
  have hdims := pqTrain_codebook_dims h hs
  have hdvd : m ∣ d := Nat.dvd_of_mod_eq_zero hmd
  unfold pqDecode
  have hsel : ∀ c ∈ selectedCentroids pq (pqEncode pq v), c.length = d / m := by
    intro c hc
    obtain ⟨cb, hcb, cidx, hcidx, hceq⟩ := mem_zipWith _ _ _ c hc
    have hcblen := (hdims cb hcb).1
    have hclt : cidx < cb.length := by
      unfold pqEncode at hcidx
      obtain ⟨cb', hcb', seg, _, hceq'⟩ := mem_zipWith _ _ _ cidx hcidx
      have hcb'len := (hdims cb' hcb').1
      have hcb'ne : cb' ≠ [] := by
        intro hnil
        rw [hnil] at hcb'len
        simp only [List.length_nil] at hcb'len
        have : (0:ℕ) < 2 ^ nbits := Nat.pos_pow_of_pos _ (by norm_num)
        omega
      rw [hceq', hcblen]
      have := nearestIdx_lt pq.metric cb' seg hcb'ne
      rw [hcb'len] at this
      exact this
    rw [hceq]
    exact (hdims cb hcb).2 _ (getD_mem hclt [])
  have hsellen : (selectedCentroids pq (pqEncode pq v)).length = m := by
    have hpqm : pq.m = m := by rw [hshape]
    unfold selectedCentroids pqEncode
    rw [List.length_zipWith, List.length_zipWith, splitSeg_length, hcbl, hpqm]
    simp
  rw [flatten_length_const _ hsel, hsellen, Nat.mul_div_cancel' hdvd]

/-- C8 counterexample: a concretely trained product quantizer (d = 1,
m = 1, nbits = 1, trained on samples 0 and 1) reconstructs the
in-dimension vector `[10]` at squared distance 81, far beyond the maximum
intra-codebook spread 1 — the claimed upper bound fails. -/
theorem pq_spread_bound_counterexample :
    pqTrain Metric.euclidean [[0],[1]] 1 1 1 5 0
      = .ok ⟨1, 1, 1, Metric.euclidean, [[[1],[0]]]⟩ ∧
    ([10] : Vec).length = 1 ∧
    ¬ sqDist [10] (pqDecode ⟨1, 1, 1, Metric.euclidean, [[[1],[0]]]⟩
        (pqEncode ⟨1, 1, 1, Metric.euclidean, [[[1],[0]]]⟩ [10]))
      ≤ maxSpread ⟨1, 1, 1, Metric.euclidean, [[[1],[0]]]⟩ :=
  ⟨by with_unfolding_all rfl, rfl, by with_unfolding_all decide⟩

/-- C8 (amended): for every trained product quantizer and every vector of
the index dimension, the squared distance from `v` to
`decode(encode(v))` is at least 0, and it equals 0 only when `v` already
coincides with a concatenation of codebook centroids (no upper bound in
terms of the intra-codebook spread holds). -/
theorem pq_reconstruction_bounds (samples : List Vec)
    (d m nbits maxIter seed : ℕ) (pq : PQ)
    (h : pqTrain Metric.euclidean samples d m nbits maxIter seed = .ok pq)
    (hs : ∀ s ∈ samples, s.length = d) (v : Vec) (hv : v.length = d) :
    0 ≤ sqDist v (pqDecode pq (pqEncode pq v)) ∧
    (sqDist v (pqDecode pq (pqEncode pq v)) = 0 →
      ∃ code, v = pqDecode pq code) := by
  refine ⟨sqDist_nonneg _ _, ?_⟩
  intro h0
  have hlen : v.length = (pqDecode pq (pqEncode pq v)).length := by
    rw [hv, pqDecode_encode_length h hs]
  exact ⟨pqEncode pq v, (sqDist_eq_zero_iff v _ hlen).mp h0⟩

/-- C8 witness: the amended bounds instantiated on a concretely trained
product quantizer and the in-dimension vector `[0]`. -/
theorem pq_reconstruction_bounds_witness :
    pqTrain Metric.euclidean [[0],[1]] 1 1 1 5 0
      = .ok ⟨1, 1, 1, Metric.euclidean, [[[1],[0]]]⟩ ∧
    (∀ s ∈ ([[0],[1]] : List Vec), s.length = 1) ∧
    ([0] : Vec).length = 1 ∧
    (0 ≤ sqDist [0] (pqDecode ⟨1, 1, 1, Metric.euclidean, [[[1],[0]]]⟩
        (pqEncode ⟨1, 1, 1, Metric.euclidean, [[[1],[0]]]⟩ [0])) ∧
      (sqDist [0] (pqDecode ⟨1, 1, 1, Metric.euclidean, [[[1],[0]]]⟩
          (pqEncode ⟨1, 1, 1, Metric.euclidean, [[[1],[0]]]⟩ [0])) = 0 →
        ∃ code, ([0] : Vec) = pqDecode ⟨1, 1, 1, Metric.euclidean, [[[1],[0]]]⟩ code)) :=
  ⟨by with_unfolding_all rfl, by decide, rfl,
   pq_reconstruction_bounds [[0],[1]] 1 1 1 5 0
     ⟨1, 1, 1, Metric.euclidean, [[[1],[0]]]⟩
     (by with_unfolding_all rfl) (by decide) [0] rfl⟩

/-! ### Composite IVF+PQ index (spec section 4.7) -/

/-- Modelled from the spec (section 4.7): vectors are assigned to a
coarse centroid for bucketing and PQ-encoded for storage within the
bucket. -/
structure IVFPQIndex where
  dim : ℕ
  metric : Metric
  coarse : List Vec
  buckets : List (List ℕ)
  pq : PQ
  codes : List (List ℕ)
deriving Repr, DecidableEq

/-- Modelled from the spec (section 4.7): train the coarse quantizer and
the product quantizer on the same samples. -/
def ivfpqTrain (d : ℕ) (metric : Metric) (samples : List Vec)
    (nlist mseg nbits maxIter seed : ℕ) : Except Err IVFPQIndex :=
  match kmeansTrain metric samples nlist maxIter seed with
  | .error e => .error e
  | .ok cs =>
    match pqTrain metric samples d mseg nbits maxIter (seed + nlist) with
    | .error e => .error e
    | .ok pq => .ok ⟨d, metric, cs, List.replicate cs.length [], pq, []⟩

/-- Modelled from the spec (section 4.7): add assigns the vector to its
coarse bucket and stores its PQ code. -/
def ivfpqAdd (ix : IVFPQIndex) (v : Vec) : IVFPQIndex :=
  let c := nearestIdx ix.metric ix.coarse v
  { ix with
    buckets := ix.buckets.set c ((ix.buckets.getD c []) ++ [ix.codes.length]),
    codes := ix.codes ++ [pqEncode ix.pq v] }

/-- Populating a trained IVF+PQ index with a whole dataset. -/
def ivfpqBuild (ix : IVFPQIndex) (vs : List Vec) : IVFPQIndex :=
  vs.foldl ivfpqAdd ix

/-- Modelled from the spec (section 4.7): probe `nprobe` coarse buckets,
rank candidates by PQ approximate distance, return the top `k`. -/
def ivfpqSearch (ix : IVFPQIndex) (q : Vec) (k nprobe : ℕ) : List (ℕ × ℚ) :=
  let ranked := rankPairs (ix.coarse.enum.map (fun p => (p.1, ix.metric.dist q p.2)))
  let probed := (ranked.take nprobe).map Prod.fst
  let cands := probed.flatMap (fun c => ix.buckets.getD c [])
  (rankPairs (cands.map (fun i => (i, pqApproxDist ix.pq q (ix.codes.getD i []))))).take k

/-- Modelled from the spec (glossary): the recall numerator — how many of
the approximate results are true top-k neighbors per FlatIndex ground
truth. -/
def recallCount (truth approx : List (ℕ × ℚ)) : ℕ :=
  ((approx.map Prod.fst).filter (fun i => (truth.map Prod.fst).contains i)).length

/-- End-to-end recall numerator of an IVF+PQ configuration against
FlatIndex ground truth on the same data (`none` when training fails). -/
def ivfpqRecall (metric : Metric) (d : ℕ) (data : List Vec) (q : Vec)
    (k nlist mseg nbits nprobe maxIter seed : ℕ) : Option ℕ :=
  match ivfpqTrain d metric data nlist mseg nbits maxIter seed with
  | .error _ => none
  | .ok ix0 => some (recallCount (flatSearch metric data q k)
      (ivfpqSearch (ivfpqBuild ix0 data) q k nprobe))

/-- C5 counterexample: on the fixed one-dimensional dataset
`[9],[10],[0],[1],[2]` with `m = 1`, `nlist = 1`, `nprobe = 1`, `k = 2`
and seed 1, raising `nbits` from 1 to 2 drops the recall numerator
against FlatIndex ground truth from 2 to 1: recall is not monotone
non-decreasing in `nbits`. -/
theorem ivfpq_recall_not_monotone_counterexample :
    ivfpqRecall Metric.euclidean 1 [[9],[10],[0],[1],[2]] [1] 2 1 1 1 1 8 1
      = some 2 ∧
    ivfpqRecall Metric.euclidean 1 [[9],[10],[0],[1],[2]] [1] 2 1 1 2 1 8 1
      = some 1 ∧
    (1 : ℕ) < 2 ∧ ¬ (2 : ℕ) ≤ 1 :=
  ⟨by with_unfolding_all rfl, by with_unfolding_all rfl, by decide, by decide⟩

/-- C5 (amended): increasing `nbits` can strictly decrease recall against
FlatIndex ground truth; what does hold for every index, query, `k` and
probe count is that the recall numerator never exceeds `k` (recall stays
within `[0, 1]`). -/
theorem ivfpq_recall_bounded (ix : IVFPQIndex) (q : Vec) (k np : ℕ)
    (truth : List (ℕ × ℚ)) :
    recallCount truth (ivfpqSearch ix q k np) ≤ k := by
  unfold recallCount
  calc (((ivfpqSearch ix q k np).map Prod.fst).filter _).length
      ≤ ((ivfpqSearch ix q k np).map Prod.fst).length :=
        List.length_filter_le _ _
    _ = (ivfpqSearch ix q k np).length := List.length_map _ _
    _ ≤ k := by
        unfold ivfpqSearch
        exact List.length_take_le _ _

/-! ### IndexPersistence (spec section 4.8) -/

/-- Modelled from the spec (section 4.8): the serialized byte stream,
abstracted as a stream of tokens — counts and tags as naturals, vector
components as scalars. -/
inductive Tok where
  | nat (n : ℕ)
  | rat (q : ℚ)
deriving DecidableEq, Repr

/-- Metric identifier recorded in the persisted layout. -/
def metricTag : Metric → ℕ
  | .euclidean => 0
  | .innerProduct => 1

/-- Decoding a metric identifier; unknown tags are `CorruptState`. -/
def metricOfTag : ℕ → Except Err Metric
  | 0 => .ok .euclidean
  | 1 => .ok .innerProduct
  | _ => .error .corruptState

/-- A vector with an explicit component count. -/
def encVec (v : Vec) : List Tok := .nat v.length :: v.map .rat

/-- A vector array with an explicit count. -/
def encVecList (vs : List Vec) : List Tok :=
  .nat vs.length :: (vs.map encVec).flatten

/-- An identifier list with an explicit count. -/
def encNatList (l : List ℕ) : List Tok := .nat l.length :: l.map .nat

/-- A list of identifier lists with an explicit count. -/
def encNatLists (ls : List (List ℕ)) : List Tok :=
  .nat ls.length :: (ls.map encNatList).flatten

/-- A codebook array with an explicit count. -/
def encVecLists (cbs : List (List Vec)) : List Tok :=
  .nat cbs.length :: (cbs.map encVecList).flatten

/-- Modelled from the spec (section 6): a unified index handle over the
three index kinds. -/
inductive Index where
  | flat (dim : ℕ) (metric : Metric) (store : List Vec)
  | ivf (ix : IVFIndex)
  | ivfpq (ix : IVFPQIndex)
deriving DecidableEq, Repr

/-- Modelled from the spec (section 6): `search(handle, query, k, probe
params)` dispatching on the index kind. -/
def Index.search : Index → Vec → ℕ → ℕ → List (ℕ × ℚ)
  | .flat _ m store, q, k, _ => flatSearch m store q k
  | .ivf ix, q, k, np => ivfSearch ix q k np
  | .ivfpq ix, q, k, np => ivfpqSearch ix q k np

/-- Modelled from the spec (section 4.8): `serialize` captures format
version, index kind tag, dimension, metric identifier, trained
centroids/codebooks and the vector or code storage, all with explicit
counts. -/
def serialize : Index → List Tok
  | .flat d m store =>
    .nat 1 :: .nat 0 :: .nat d :: .nat (metricTag m) :: encVecList store
  | .ivf ix =>
    .nat 1 :: .nat 1 :: .nat ix.dim :: .nat (metricTag ix.metric) ::
      .nat (cond ix.trained 1 0) ::
      (encVecList ix.centroids ++ encNatLists ix.buckets ++ encVecList ix.store)
  | .ivfpq ix =>
    .nat 1 :: .nat 2 :: .nat ix.dim :: .nat (metricTag ix.metric) ::
      (encVecList ix.coarse ++ encNatLists ix.buckets ++
        (.nat ix.pq.d :: .nat ix.pq.m :: .nat ix.pq.nbits ::
          .nat (metricTag ix.pq.metric) :: encVecLists ix.pq.codebooks) ++
        encNatLists ix.codes)

def readNat : List Tok → Except Err (ℕ × List Tok)
  | .nat n :: r => .ok (n, r)
  | _ => .error .corruptState

def readRat : List Tok → Except Err (ℚ × List Tok)
  | .rat q :: r => .ok (q, r)
  | _ => .error .corruptState

def readRats : ℕ → List Tok → Except Err (Vec × List Tok)
  | 0, r => .ok ([], r)
  | n + 1, r =>
    match readRat r with
    | .error e => .error e
    | .ok (q, r') =>
      match readRats n r' with
      | .error e => .error e
      | .ok (v, r'') => .ok (q :: v, r'')

/-- Reading one vector, rejecting any length that disagrees with the
expected dimension. -/
def readVec (d : ℕ) (r : List Tok) : Except Err (Vec × List Tok) :=
  match readNat r with
  | .error e => .error e
  | .ok (L, r') => if L = d then readRats L r' else .error .corruptState

def readVecsN : ℕ → ℕ → List Tok → Except Err (List Vec × List Tok)
  | 0, _, r => .ok ([], r)
  | n + 1, d, r =>
    match readVec d r with
    | .error e => .error e
    | .ok (v, r') =>
      match readVecsN n d r' with
      | .error e => .error e
      | .ok (vs, r'') => .ok (v :: vs, r'')

def readVecList (d : ℕ) (r : List Tok) : Except Err (List Vec × List Tok) :=
  match readNat r with
  | .error e => .error e
  | .ok (n, r') => readVecsN n d r'

def readNats : ℕ → List Tok → Except Err (List ℕ × List Tok)
  | 0, r => .ok ([], r)
  | n + 1, r =>
    match readNat r with
    | .error e => .error e
    | .ok (x, r') =>
      match readNats n r' with
      | .error e => .error e
      | .ok (l, r'') => .ok (x :: l, r'')

def readNatList (r : List Tok) : Except Err (List ℕ × List Tok) :=
  match readNat r with
  | .error e => .error e
  | .ok (n, r') => readNats n r'

def readNatListsN : ℕ → List Tok → Except Err (List (List ℕ) × List Tok)
  | 0, r => .ok ([], r)
  | n + 1, r =>
    match readNatList r with
    | .error e => .error e
    | .ok (l, r') =>
      match readNatListsN n r' with
      | .error e => .error e
      | .ok (ls, r'') => .ok (l :: ls, r'')

def readNatLists (r : List Tok) : Except Err (List (List ℕ) × List Tok) :=
  match readNat r with
  | .error e => .error e
  | .ok (n, r') => readNatListsN n r'

def readVecListsN : ℕ → ℕ → List Tok → Except Err (List (List Vec) × List Tok)
  | 0, _, r => .ok ([], r)
  | n + 1, d, r =>
    match readVecList d r with
    | .error e => .error e
    | .ok (vs, r') =>
      match readVecListsN n d r' with
      | .error e => .error e
      | .ok (ls, r'') => .ok (vs :: ls, r'')

def readVecLists (d : ℕ) (r : List Tok) : Except Err (List (List Vec) × List Tok) :=
  match readNat r with
  | .error e => .error e
  | .ok (n, r') => readVecListsN n d r'

/-- Modelled from the spec (section 4.8): `deserialize` parses the
persisted layout, failing with `CorruptState` on an unrecognized tag, a
violated structural invariant (dimension consistency, centroid count), or
a truncated or overlong stream. -/
def deserialize (r : List Tok) : Except Err Index :=
  match readNat r with
  | .error e => .error e
  | .ok (ver, r1) =>
    if ver ≠ 1 then .error .corruptState
    else
      match readNat r1 with
      | .error e => .error e
      | .ok (tag, r2) =>
        match readNat r2 with
        | .error e => .error e
        | .ok (d, r3) =>
          match readNat r3 with
          | .error e => .error e
          | .ok (mt, r4) =>
            match metricOfTag mt with
            | .error e => .error e
            | .ok metric =>
              if tag = 0 then
                match readVecList d r4 with
                | .error e => .error e
                | .ok (store, r5) =>
                  if r5 = [] then .ok (.flat d metric store)
                  else .error .corruptState
              else if tag = 1 then
                match readNat r4 with
                | .error e => .error e
                | .ok (tr, r5) =>
                  if tr ≤ 1 then
                    match readVecList d r5 with
                    | .error e => .error e
                    | .ok (cs, r6) =>
                      match readNatLists r6 with
                      | .error e => .error e
                      | .ok (bs, r7) =>
                        if bs.length = cs.length then
                          match readVecList d r7 with
                          | .error e => .error e
                          | .ok (st, r8) =>
                            if r8 = [] then
                              .ok (.ivf ⟨d, metric, tr = 1, cs, bs, st⟩)
                            else .error .corruptState
                        else .error .corruptState
                  else .error .corruptState
              else if tag = 2 then
                match readVecList d r4 with
                | .error e => .error e
                | .ok (coarse, r5) =>
                  match readNatLists r5 with
                  | .error e => .error e
                  | .ok (bs, r6) =>
                    if bs.length = coarse.length then
                      match readNat r6 with
                      | .error e => .error e
                      | .ok (pd, r7) =>
                        if pd = d then
                          match readNat r7 with
                          | .error e => .error e
                          | .ok (pm, r8) =>
                            match readNat r8 with
                            | .error e => .error e
                            | .ok (pnbits, r9) =>
                              match readNat r9 with
                              | .error e => .error e
                              | .ok (pmt, r10) =>
                                match metricOfTag pmt with
                                | .error e => .error e
                                | .ok pmetric =>
                                  match readVecLists (pd / pm) r10 with
                                  | .error e => .error e
                                  | .ok (cbs, r11) =>
                                    if cbs.length = pm then
                                      match readNatLists r11 with
                                      | .error e => .error e
                                      | .ok (codes, r12) =>
                                        if r12 = [] then
                                          .ok (.ivfpq ⟨d, metric, coarse, bs,
                                            ⟨pd, pm, pnbits, pmetric, cbs⟩, codes⟩)
                                        else .error .corruptState
                                    else .error .corruptState
                        else .error .corruptState
                    else .error .corruptState
              else .error .corruptState

/-- The structural invariants a searchable index satisfies and
`deserialize` re-checks: dimension consistency of every stored vector,
centroid and codebook array, and agreement of bucket and centroid
counts. -/
def Index.wellFormed : Index → Prop
  | .flat d _ store => ∀ v ∈ store, v.length = d
  | .ivf ix => (∀ v ∈ ix.centroids, v.length = ix.dim) ∧
      (∀ v ∈ ix.store, v.length = ix.dim) ∧
      ix.buckets.length = ix.centroids.length
  | .ivfpq ix => (∀ v ∈ ix.coarse, v.length = ix.dim) ∧
      ix.buckets.length = ix.coarse.length ∧
      ix.pq.d = ix.dim ∧
      ix.pq.codebooks.length = ix.pq.m ∧
      (∀ cb ∈ ix.pq.codebooks, ∀ c ∈ cb, c.length = ix.pq.d / ix.pq.m)

theorem metricOfTag_metricTag (m : Metric) :
    metricOfTag (metricTag m) = .ok m := by
  cases m <;> rfl

theorem readRats_enc : ∀ (v : Vec) (r : List Tok),
    readRats v.length (v.map .rat ++ r) = .ok (v, r) := by
  intro v
  induction v with
  | nil => intro r; rfl
  | cons q t ih =>
    intro r
    show readRats (t.length + 1) (.rat q :: (t.map .rat ++ r)) = _
    simp [readRats, readRat, ih r]

theorem readVec_enc {d : ℕ} {v : Vec} (h : v.length = d) (r : List Tok) :
    readVec d (encVec v ++ r) = .ok (v, r) := by
  subst h
  show readVec v.length (.nat v.length :: (v.map .rat ++ r)) = _
  simp [readVec, readNat, readRats_enc v r]

theorem readVecsN_enc {d : ℕ} : ∀ (vs : List Vec)
    (_ : ∀ v ∈ vs, v.length = d) (r : List Tok),
    readVecsN vs.length d ((vs.map encVec).flatten ++ r) = .ok (vs, r) := by
  intro vs
  induction vs with
  | nil => intro _ r; rfl
  | cons v t ih =>
    intro h r
    show readVecsN (t.length + 1) d ((encVec v ++ (t.map encVec).flatten) ++ r) = _
    rw [List.append_assoc]
    simp [readVecsN, readVec_enc (h v (List.mem_cons_self _ _)),
      ih (fun w hw => h w (List.mem_cons_of_mem _ hw)) r]

theorem readVecList_enc {d : ℕ} {vs : List Vec}
    (h : ∀ v ∈ vs, v.length = d) (r : List Tok) :
    readVecList d (encVecList vs ++ r) = .ok (vs, r) := by
  show readVecList d (.nat vs.length :: ((vs.map encVec).flatten ++ r)) = _
  simp [readVecList, readNat, readVecsN_enc vs h r]

theorem readNats_enc : ∀ (l : List ℕ) (r : List Tok),
    readNats l.length (l.map .nat ++ r) = .ok (l, r) := by
  intro l
  induction l with
  | nil => intro r; rfl
  | cons x t ih =>
    intro r
    show readNats (t.length + 1) (.nat x :: (t.map .nat ++ r)) = _
    simp [readNats, readNat, ih r]

theorem readNatList_enc (l : List ℕ) (r : List Tok) :
    readNatList (encNatList l ++ r) = .ok (l, r) := by
  show readNatList (.nat l.length :: (l.map .nat ++ r)) = _
  simp [readNatList, readNat, readNats_enc l r]

theorem readNatListsN_enc : ∀ (ls : List (List ℕ)) (r : List Tok),
    readNatListsN ls.length ((ls.map encNatList).flatten ++ r) = .ok (ls, r) := by
  intro ls
  induction ls with
  | nil => intro r; rfl
  | cons l t ih =>
    intro r
    show readNatListsN (t.length + 1)
      ((encNatList l ++ (t.map encNatList).flatten) ++ r) = _
    rw [List.append_assoc]
    simp [readNatListsN, readNatList_enc l, ih r]

theorem readNatLists_enc (ls : List (List ℕ)) (r : List Tok) :
    readNatLists (encNatLists ls ++ r) = .ok (ls, r) := by
  show readNatLists (.nat ls.length :: ((ls.map encNatList).flatten ++ r)) = _
  simp [readNatLists, readNat, readNatListsN_enc ls r]

theorem readVecListsN_enc {d : ℕ} : ∀ (ls : List (List Vec))
    (_ : ∀ cb ∈ ls, ∀ v ∈ cb, v.length = d) (r : List Tok),
    readVecListsN ls.length d ((ls.map encVecList).flatten ++ r) = .ok (ls, r) := by
  intro ls
  induction ls with
  | nil => intro _ r; rfl
  | cons cb t ih =>
    intro h r
    show readVecListsN (t.length + 1) d
      ((encVecList cb ++ (t.map encVecList).flatten) ++ r) = _
    rw [List.append_assoc]
    simp [readVecListsN, readVecList_enc (h cb (List.mem_cons_self _ _)),
      ih (fun w hw => h w (List.mem_cons_of_mem _ hw)) r]

theorem readVecLists_enc {d : ℕ} {ls : List (List Vec)}
    (h : ∀ cb ∈ ls, ∀ v ∈ cb, v.length = d) (r : List Tok) :
    readVecLists d (encVecLists ls ++ r) = .ok (ls, r) := by
  show readVecLists d (.nat ls.length :: ((ls.map encVecList).flatten ++ r)) = _
  simp [readVecLists, readNat, readVecListsN_enc ls h r]

/-- Deserialization is a left inverse of serialization on well-formed
indices. -/
theorem deserialize_serialize (x : Index) (h : x.wellFormed) :
    deserialize (serialize x) = .ok x := by
  cases x with
  | flat d m store =>
    have h' : ∀ v ∈ store, v.length = d := h
    have e1 : readVecList d (encVecList store) = .ok (store, []) := by
      have := readVecList_enc h' []
      rwa [List.append_nil] at this
    simp [serialize, deserialize, readNat, metricOfTag_metricTag, e1]
  | ivf ix =>
    rcases ix with ⟨d, m, tr, cs, bs, st⟩
    obtain ⟨h1, h2, h3⟩ := h
    have e1 : readVecList d (encVecList cs ++ (encNatLists bs ++ encVecList st))
        = .ok (cs, encNatLists bs ++ encVecList st) := readVecList_enc h1 _
    have e2 : readNatLists (encNatLists bs ++ encVecList st)
        = .ok (bs, encVecList st) := readNatLists_enc bs _
    have e3 : readVecList d (encVecList st) = .ok (st, []) := by
      have := readVecList_enc h2 []
      rwa [List.append_nil] at this
    cases tr <;>
      simp [serialize, deserialize, readNat, metricOfTag_metricTag,
        List.append_assoc, e1, e2, e3, h3]
  | ivfpq ix =>
    rcases ix with ⟨d, m, coarse, bs, pq, codes⟩
    rcases pq with ⟨pd, pm, pnb, pmt, cbs⟩
    obtain ⟨h1, h2, h3, h4, h5⟩ := h
    simp only at h3
    subst h3
    have e1 : readVecList pd (encVecList coarse ++ (encNatLists bs ++
        (.nat pd :: .nat pm :: .nat pnb :: .nat (metricTag pmt) ::
          (encVecLists cbs ++ encNatLists codes))))
        = .ok (coarse, encNatLists bs ++
          (.nat pd :: .nat pm :: .nat pnb :: .nat (metricTag pmt) ::
            (encVecLists cbs ++ encNatLists codes))) := readVecList_enc h1 _
    have e2 : readNatLists (encNatLists bs ++
        (.nat pd :: .nat pm :: .nat pnb :: .nat (metricTag pmt) ::
          (encVecLists cbs ++ encNatLists codes)))
        = .ok (bs, .nat pd :: .nat pm :: .nat pnb :: .nat (metricTag pmt) ::
          (encVecLists cbs ++ encNatLists codes)) := readNatLists_enc bs _
    have e7 : readVecLists (pd / pm) (encVecLists cbs ++ encNatLists codes)
        = .ok (cbs, encNatLists codes) := readVecLists_enc h5 _
    have e8 : readNatLists (encNatLists codes) = .ok (codes, []) := by
      have := readNatLists_enc codes []
      rwa [List.append_nil] at this
    simp [serialize, deserialize, readNat, metricOfTag_metricTag,
      List.append_assoc, e1, e2, e7, e8, h2, h4]

/-- C3: for every well-formed index of every kind (Flat, IVF, IVF+PQ) and
every query, deserializing the serialized index yields an index that
answers the query with a result list identical to the original's. -/
theorem serialize_roundtrip_search (x : Index) (h : x.wellFormed)
    (q : Vec) (k np : ℕ) :
    ∃ y, deserialize (serialize x) = .ok y ∧
      Index.search y q k np = Index.search x q k np :=
  ⟨x, deserialize_serialize x h, rfl⟩

/-- C3 witness: the round trip on a concrete populated IVF index. -/
theorem serialize_roundtrip_search_witness :
    Index.wellFormed (.ivf ⟨1, Metric.euclidean, true, [[0],[10]],
      [[0,2],[1]], [[1],[9],[4]]⟩) ∧
    ∃ y, deserialize (serialize (.ivf ⟨1, Metric.euclidean, true, [[0],[10]],
        [[0,2],[1]], [[1],[9],[4]]⟩)) = .ok y ∧
      Index.search y [3] 2 2 = Index.search (.ivf ⟨1, Metric.euclidean, true,
        [[0],[10]], [[0,2],[1]], [[1],[9],[4]]⟩) [3] 2 2 :=
  ⟨by exact ⟨by intro v hv; fin_cases hv <;> rfl,
      by intro v hv; fin_cases hv <;> rfl, rfl⟩,
   serialize_roundtrip_search
     (.ivf ⟨1, Metric.euclidean, true, [[0],[10]], [[0,2],[1]], [[1],[9],[4]]⟩)
     (by exact ⟨by intro v hv; fin_cases hv <;> rfl,
        by intro v hv; fin_cases hv <;> rfl, rfl⟩) [3] 2 2⟩

end Ann

namespace Rdd

/-!
### Spark RDD rating pipelines

Shallow embedding of the MovieLens RDD notebook: an RDD of key-value
pairs is a list of pairs (single-partition semantics, so the
partition-merge combiner of `aggregateByKey` never fires), and the keyed
transformations enumerate keys in a fixed deterministic order shared by
every pipeline over the same RDD.
-/

/-- The distinct keys of a keyed RDD, in a fixed deterministic order. -/
def rddKeys {K V : Type _} [DecidableEq K] (l : List (K × V)) : List K :=
  (l.map Prod.fst).dedup

/-- All values carried by one key, in encounter order. -/
def valuesOf {K V : Type _} [DecidableEq K] (k : K) (l : List (K × V)) :
    List V :=
  (l.filter (fun p => p.1 = k)).map Prod.snd

/-- `aggregateByKey(zero, seqOp, combOp)`: fold each key's values with
`seqOp` from `zero`; `combOp` merges partition results and is inert in
this one-partition embedding. -/
def aggregateByKey {K V B : Type _} [DecidableEq K] (zero : B)
    (seqOp : B → V → B) (_combOp : B → B → B) (l : List (K × V)) :
    List (K × B) :=
  (rddKeys l).map (fun k => (k, (valuesOf k l).foldl seqOp zero))

/-- `reduceByKey(op)`: reduce each key's nonempty value list with `op`. -/
def reduceByKey {K V : Type _} [DecidableEq K] [Inhabited V]
    (op : V → V → V) (l : List (K × V)) : List (K × V) :=
  (rddKeys l).map (fun k =>
    (k, match valuesOf k l with
        | [] => default
        | v :: vs => vs.foldl op v))

/-- `mapValues(f)`: apply `f` to the value of every pair. -/
def mapValues {K A B : Type _} (f : A → B) (l : List (K × A)) :
    List (K × B) :=
  l.map (fun p => (p.1, f p.2))

/-- `ratings_rdd = data_rdd.map(lambda line: line.split("\t")[1:3])
.map(lambda x: (int(x[0]), float(x[1])))` — the key is the integer parsed
from field 1 of the tab-separated line, the value the float parsed from
field 2; the numeral parsers are abstract parameters. -/
def ratingsRdd (toI : String → ℤ) (toF : String → ℚ) (lines : List String) :
    List (ℤ × ℚ) :=
  lines.map (fun line =>
    let x := ((line.splitOn "\t").drop 1).take 2
    (toI (x.getD 0 ""), toF (x.getD 1 "")))

/-- `movie_rating_counts = ratings_rdd.aggregateByKey((0, 0),
lambda acc, rating: (acc[0] + rating, acc[1] + 1),
lambda acc1, acc2: (acc1[0] + acc2[0], acc1[1] + acc2[1]))`. -/
def movieRatingCounts (ratings : List (ℤ × ℚ)) : List (ℤ × (ℚ × ℕ)) :=
  aggregateByKey ((0 : ℚ), (0 : ℕ))
    (fun acc r => (acc.1 + r, acc.2 + 1))
    (fun a b => (a.1 + b.1, a.2 + b.2)) ratings

/-- `average_rating_per_movie = movie_rating_counts.mapValues(lambda x:
x[0] / x[1])` — the aggregateByKey variant. -/
def averageRatingA (ratings : List (ℤ × ℚ)) : List (ℤ × ℚ) :=
  mapValues (fun x => x.1 / (x.2 : ℚ)) (movieRatingCounts ratings)

/-- `movie_rating_sum_count = ratings_rdd.map(lambda x: (x[0], (x[1], 1)))
.reduceByKey(lambda x, y: (x[0] + y[0], x[1] + y[1]))`. -/
def movieRatingSumCount (ratings : List (ℤ × ℚ)) : List (ℤ × (ℚ × ℕ)) :=
  reduceByKey (fun x y => (x.1 + y.1, x.2 + y.2))
    (ratings.map (fun x => (x.1, (x.2, (1 : ℕ)))))

/-- `average_rating_per_movie = movie_rating_sum_count.mapValues(lambda x:
x[0] / x[1])` — the reduceByKey variant. -/
def averageRatingB (ratings : List (ℤ × ℚ)) : List (ℤ × ℚ) :=
  mapValues (fun x => x.1 / (x.2 : ℚ)) (movieRatingSumCount ratings)

/-- `user_rating_counts = ratings_rdd.map(lambda x: (x[0], 1))
.reduceByKey(lambda x, y: x + y)` — keyed by `x[0]`, the movie id. -/
def userRatingCounts (ratings : List (ℤ × ℚ)) : List (ℤ × ℕ) :=
  reduceByKey (fun x y => x + y) (ratings.map (fun x => (x.1, (1 : ℕ))))

/-- `total_ratings_per_movie = movie_rating_counts.mapValues(lambda x:
x[1])`. -/
def totalRatingsPerMovie (ratings : List (ℤ × ℚ)) : List (ℤ × ℕ) :=
  mapValues (fun x => x.2) (movieRatingCounts ratings)

theorem rddKeys_map_fst {K V W : Type _} [DecidableEq K]
    (g : K × V → W) (l : List (K × V)) :
    rddKeys (l.map (fun p => (p.1, g p))) = rddKeys l := by
  unfold rddKeys
  rw [List.map_map]
  rfl

theorem valuesOf_map {K V W : Type _} [DecidableEq K] (f : V → W)
    (k : K) (l : List (K × V)) :
    valuesOf k (l.map (fun p => (p.1, f p.2))) = (valuesOf k l).map f := by
  unfold valuesOf
  induction l with
  | nil => rfl
  | cons p t ih =>
    by_cases hk : p.1 = k
    · simp only [List.map_cons, List.filter_cons]
      rw [if_pos (by simpa using hk), if_pos (by simpa using hk)]
      simpa using ih
    · simp only [List.map_cons, List.filter_cons]
      rw [if_neg (by simpa using hk), if_neg (by simpa using hk)]
      simpa using ih

theorem valuesOf_ne_nil {K V : Type _} [DecidableEq K] {k : K}
    {l : List (K × V)} (h : k ∈ rddKeys l) : valuesOf k l ≠ [] := by
  unfold rddKeys at h
  have hm := List.mem_dedup.mp h
  rcases List.mem_map.mp hm with ⟨p, hp, hpk⟩
  intro hnil
  have : p.2 ∈ valuesOf k l := by
    unfold valuesOf
    exact List.mem_map_of_mem _ (List.mem_filter.mpr ⟨hp, by simpa using hpk⟩)
  rw [hnil] at this
  exact absurd this (List.not_mem_nil _)

theorem foldl_sum_count (vs : List ℚ) : ∀ (a : ℚ) (b : ℕ),
    vs.foldl (fun acc r => (acc.1 + r, acc.2 + 1)) (a, b)
      = (a + vs.sum, b + vs.length) := by
  induction vs with
  | nil => intro a b; simp
  | cons v t ih =>
    intro a b
    rw [List.foldl_cons]
    rw [ih (a + v) (b + 1), List.sum_cons, List.length_cons]
    refine Prod.ext ?_ ?_
    · show a + v + t.sum = a + (v + t.sum)
      ring
    · show b + 1 + t.length = b + (t.length + 1)
      omega

theorem foldl_pair_sum_count (vs : List ℚ) : ∀ (a : ℚ) (b : ℕ),
    (vs.map (fun r => (r, (1 : ℕ)))).foldl
      (fun x y => (x.1 + y.1, x.2 + y.2)) (a, b)
      = (a + vs.sum, b + vs.length) := by
  induction vs with
  | nil => intro a b; simp
  | cons v t ih =>
    intro a b
    simp only [List.map_cons, List.foldl_cons]
    rw [ih (a + v) (b + 1), List.sum_cons, List.length_cons]
    refine Prod.ext ?_ ?_
    · show a + v + t.sum = a + (v + t.sum)
      ring
    · show b + 1 + t.length = b + (t.length + 1)
      omega

theorem foldl_count_ones (vs : List ℚ) : ∀ (b : ℕ),
    (vs.map (fun _ => (1 : ℕ))).foldl (fun x y => x + y) b
      = b + vs.length := by
  induction vs with
  | nil => intro b; simp
  | cons v t ih =>
    intro b
    simp only [List.map_cons, List.foldl_cons]
    rw [ih (b + 1), List.length_cons]
    omega

/-- The aggregateByKey (total, count) accumulator and the reduceByKey
componentwise sum compute identical per-movie (sum, count) tables. -/
theorem movieCounts_eq_sumCount (ratings : List (ℤ × ℚ)) :
    movieRatingCounts ratings = movieRatingSumCount ratings := by
  unfold movieRatingCounts movieRatingSumCount aggregateByKey reduceByKey
  rw [rddKeys_map_fst (fun p => (p.2, (1 : ℕ)))]
  apply List.map_congr_left
  intro k hk
  rw [valuesOf_map (fun r => (r, (1 : ℕ)))]
  rcases hvs : valuesOf k ratings with _ | ⟨v, vs⟩
  · exact absurd hvs (valuesOf_ne_nil hk)
  · simp only [List.map_cons]
    rw [foldl_sum_count, foldl_pair_sum_count]
    refine congrArg (fun z => (k, z)) ?_
    refine Prod.ext ?_ ?_
    · show 0 + (v :: vs).sum = v + vs.sum
      rw [List.sum_cons]
      ring
    · show 0 + (v :: vs).length = 1 + vs.length
      rw [List.length_cons]
      omega

/-- C9: the two per-movie average-rating pipelines of the RDD notebook —
aggregateByKey with a (total, count) accumulator followed by
mapValues(total/count), and map to (rating, 1) followed by reduceByKey of
componentwise sums and mapValues(sum/count) — compute the same mapping
from movie id to average rating, and every key in the aggregated result
carries a count of at least 1, so both divisions are well-defined. -/
theorem average_pipelines_agree (ratings : List (ℤ × ℚ)) :
    averageRatingA ratings = averageRatingB ratings ∧
    ∀ p ∈ movieRatingCounts ratings, 1 ≤ p.2.2 := by
  constructor
  · unfold averageRatingA averageRatingB
    rw [movieCounts_eq_sumCount]
  · intro p hp
    unfold movieRatingCounts aggregateByKey at hp
    rcases List.mem_map.mp hp with ⟨k, hk, hkp⟩
    rcases hvs : valuesOf k ratings with _ | ⟨v, vs⟩
    · exact absurd hvs (valuesOf_ne_nil hk)
    · rw [← hkp]
      show 1 ≤ ((valuesOf k ratings).foldl
        (fun acc r => (acc.1 + r, acc.2 + 1)) ((0 : ℚ), (0 : ℕ))).2
      rw [hvs, foldl_sum_count]
      show 1 ≤ 0 + (v :: vs).length
      rw [List.length_cons]
      omega

/-- Per-key counting: reduceByKey over constant-1 values equals the count
component of the aggregateByKey accumulator. -/
theorem userCounts_eq_totals (ratings : List (ℤ × ℚ)) :
    userRatingCounts ratings = totalRatingsPerMovie ratings := by
  unfold userRatingCounts totalRatingsPerMovie movieRatingCounts
    aggregateByKey reduceByKey mapValues
  rw [rddKeys_map_fst (fun _ => (1 : ℕ)), List.map_map]
  apply List.map_congr_left
  intro k hk
  simp only [Function.comp_apply]
  rw [valuesOf_map (fun _ => (1 : ℕ))]
  rcases hvs : valuesOf k ratings with _ | ⟨v, vs⟩
  · exact absurd hvs (valuesOf_ne_nil hk)
  · simp only [List.map_cons]
    show (k, (vs.map (fun _ => (1 : ℕ))).foldl (fun x y => x + y) 1)
      = (k, ((v :: vs).foldl (fun acc r => (acc.1 + r, acc.2 + 1))
          ((0 : ℚ), (0 : ℕ))).2)
    rw [foldl_count_ones, foldl_sum_count]
    refine congrArg (fun z => (k, z)) ?_
    show 1 + vs.length = 0 + (v :: vs).length
    rw [List.length_cons]
    omega

/-- C10: the statistic printed as "Users who rated the most movies" is
keyed by the first component of `ratings_rdd`, which is parsed from field
1 of the tab-separated line — the movie id, not a user id — so
`user_rating_counts` coincides key-for-key with the per-movie counts
`total_ratings_per_movie` on every input dataset. -/
theorem user_counts_are_movie_counts (toI : String → ℤ) (toF : String → ℚ)
    (lines : List String) :
    userRatingCounts (ratingsRdd toI toF lines)
      = totalRatingsPerMovie (ratingsRdd toI toF lines) ∧
    (ratingsRdd toI toF lines).map Prod.fst
      = lines.map (fun l => toI ((l.splitOn "\t").getD 1 "")) := by
  refine ⟨userCounts_eq_totals _, ?_⟩
  unfold ratingsRdd
  rw [List.map_map]
  apply List.map_congr_left
  intro line _
  show toI ((((line.splitOn "\t").drop 1).take 2).getD 0 "")
    = toI ((line.splitOn "\t").getD 1 "")
  congr 1
  rw [List.getD_eq_getElem?_getD, List.getD_eq_getElem?_getD]
  rw [List.getElem?_take, if_pos (by norm_num), List.getElem?_drop]

end Rdd
